import Mathlib

/-!
Verification of the RAGh-Tutor core against its specification.

This file gives a shallow embedding, in Lean 4, of the retrieval-ranking
pipeline and the agentic tool-use loop of the RAGh-Tutor repository
(app/retrieval, app/agents, app/memory, app/security), and proves or refutes
the specified properties about them.

Modelling conventions:
- Python floats (similarity scores, timestamps, token estimates) are modelled
  as rationals; all comparisons in the verified code paths are order
  comparisons with wide margins, where exact rational arithmetic and IEEE
  doubles agree.
- Python dicts are modelled as insertion-ordered association lists with
  last-writer-wins update, matching CPython dict semantics.
- Asynchronous handlers and provider calls are modelled as pure functions;
  awaiting a coroutine is function application.
- External numeric providers (embedding vectors, cross-encoder scores, BM25
  scores) enter as parameters or hypotheses; the repository code that
  consumes them is embedded verbatim.
-/

/-- A retrievable chunk of text (app/schemas/documents.py, class Chunk).
The free-form metadata map and the cached embedding are omitted: no verified
property reads them. -/
structure Chunk where
  content : String
  chunk_id : String
  doc_id : String
deriving Repr, DecidableEq

namespace PyDict

/-- Python dict read: d.get(k) on an insertion-ordered association list. -/
def get {β : Type} (m : List (String × β)) (k : String) : Option β :=
  match m with
  | [] => none
  | p :: rest => if p.1 = k then some p.2 else get rest k

/-- Python dict write: d[k] = v. Updates in place when the key exists,
appends otherwise (CPython insertion-order semantics). -/
def set {β : Type} (m : List (String × β)) (k : String) (v : β) :
    List (String × β) :=
  match m with
  | [] => [(k, v)]
  | p :: rest => if p.1 = k then (k, v) :: rest else p :: set rest k v

/-- Python dict removal: d.pop(k, None). -/
def pop {β : Type} (m : List (String × β)) (k : String) : List (String × β) :=
  m.filter (fun p => p.1 ≠ k)

theorem get_set_self {β : Type} (m : List (String × β)) (k : String) (v : β) :
    get (set m k v) k = some v := by
  induction m with
  | nil => simp [get, set]
  | cons p rest ih =>
    by_cases h : p.1 = k
    · simp [set, h, get]
    · simp [set, h, get, ih]

theorem get_set_ne {β : Type} (m : List (String × β)) (k k' : String) (v : β)
    (h : k ≠ k') : get (set m k v) k' = get m k' := by
  induction m with
  | nil => simp [get, set, h]
  | cons p rest ih =>
    by_cases hp : p.1 = k
    · simp [set, hp, get, h]
    · simp [set, hp, get, ih]

theorem mem_set {β : Type} {m : List (String × β)} {k : String} {v : β}
    {q : String × β} (hq : q ∈ set m k v) : q ∈ m ∨ q = (k, v) := by
  induction m with
  | nil => simpa [set] using hq
  | cons p rest ih =>
    by_cases hp : p.1 = k
    · simp only [set, hp, if_pos rfl] at hq
      rcases List.mem_cons.mp hq with h | h
      · exact Or.inr h
      · exact Or.inl (List.mem_cons_of_mem _ h)
    · simp only [set, if_neg hp] at hq
      rcases List.mem_cons.mp hq with h | h
      · exact Or.inl (h ▸ List.mem_cons_self _ _)
      · rcases ih h with h' | h'
        · exact Or.inl (List.mem_cons_of_mem _ h')
        · exact Or.inr h'

end PyDict

section ScoreOrder

/-- Descending-by-score order used by the Python stable sorts
(list.sort(key=lambda x: x[1], reverse=True)). -/
def scoreGe {α : Type} (a b : α × ℚ) : Prop := b.2 ≤ a.2

instance {α : Type} : DecidableRel (@scoreGe α) :=
  fun a b => inferInstanceAs (Decidable (b.2 ≤ a.2))

instance {α : Type} : IsTotal (α × ℚ) scoreGe :=
  ⟨fun a b => le_total b.2 a.2⟩

instance {α : Type} : IsTrans (α × ℚ) scoreGe :=
  ⟨fun _ _ _ h1 h2 => le_trans h2 h1⟩

/-- Stable descending sort by score, embedding Python list.sort with
key=score and reverse=True. -/
def sortByScoreDesc {α : Type} (l : List (α × ℚ)) : List (α × ℚ) :=
  l.insertionSort scoreGe

theorem mem_sortByScoreDesc {α : Type} {l : List (α × ℚ)} {p : α × ℚ} :
    p ∈ sortByScoreDesc l ↔ p ∈ l := by
  simp [sortByScoreDesc]

theorem sortByScoreDesc_perm {α : Type} (l : List (α × ℚ)) :
    List.Perm (sortByScoreDesc l) l :=
  List.perm_insertionSort _ l

theorem sortByScoreDesc_sorted {α : Type} (l : List (α × ℚ)) :
    List.Sorted scoreGe (sortByScoreDesc l) :=
  List.sorted_insertionSort _ l

end ScoreOrder

namespace Reranker

/-- The cross-encoder relevance model (sentence_transformers CrossEncoder):
a pairwise scoring function on (query, chunk content). -/
abbrev Model := String → String → ℚ

/-- Embeds Reranker.rerank (app/retrieval/reranker.py, lines 26-54).
model is none when sentence-transformers is unavailable
(_initialize_model caught ImportError). -/
def rerank (model : Option Model) (query : String)
    (candidates : List (Chunk × ℚ)) (top_k : Nat) : List (Chunk × ℚ) :=
  if candidates = [] then []
  else
    match model with
    | none => candidates.take top_k
    | some m =>
      let reranked := candidates.map (fun p => (p.1, m query p.1.content))
      (sortByScoreDesc reranked).take top_k

theorem rerank_nil (model : Option Model) (query : String) (top_k : Nat) :
    rerank model query [] top_k = [] := by
  simp [rerank]

end Reranker

/-- C9: when the relevance model is unavailable the reranker passes through
the first k candidates unchanged (same chunks, scores and order) instead of
failing, and an empty candidate list yields an empty result. -/
theorem reranker_degraded_passthrough (query : String)
    (candidates : List (Chunk × ℚ)) (top_k : Nat) (model : Option Reranker.Model)
    (hne : candidates ≠ []) :
    Reranker.rerank none query candidates top_k = candidates.take top_k ∧
    Reranker.rerank model query [] top_k = [] := by
  constructor
  · simp [Reranker.rerank, hne]
  · exact Reranker.rerank_nil model query top_k

/-- C9 witness: a singleton candidate list with the model unavailable is
returned unchanged, and the empty list gives the empty result. -/
theorem reranker_degraded_passthrough_witness :
    Reranker.rerank none "q" [(⟨"text", "c1", "d1"⟩, (1 : ℚ))] 2 =
      [(⟨"text", "c1", "d1"⟩, (1 : ℚ))].take 2 ∧
    Reranker.rerank none "q" [] 2 = [] :=
  reranker_degraded_passthrough "q" [(⟨"text", "c1", "d1"⟩, (1 : ℚ))] 2 none
    (by decide)

namespace ToolRegistry

/-- Structured tool arguments and results: a JSON-like record with integer
fields, rich enough for every verified scenario. -/
abbrev ToolDict := List (String × Int)

/-- A registered tool callable (app/agents/tool_registry.py): either a plain
function or a coroutine function; both receive the input dict and may raise,
which is modelled as returning an error message. -/
inductive Handler where
  | sync (f : ToolDict → Except String ToolDict)
  | async (f : ToolDict → Except String ToolDict)

/-- Running a handler: execute_tool awaits a coroutine function and calls a
plain function directly, so both variants reduce to applying the underlying
function to the input. -/
def Handler.run : Handler → ToolDict → Except String ToolDict
  | .sync f, input => f input
  | .async f, input => f input

/-- Embeds class Tool (app/agents/tool_registry.py, lines 10-18). -/
structure Tool where
  name : String
  description : String
  parameters : ToolDict
  function : Handler

/-- The registry state: self.tools, a dict from tool name to Tool. -/
structure Registry where
  tools : List (String × Tool)

/-- The freshly constructed registry. -/
def Registry.empty : Registry := ⟨[]⟩

/-- Embeds ToolRegistry.register (lines 27-42): last-writer-wins insert. -/
def register (reg : Registry) (name description : String)
    (parameters : ToolDict) (function : Handler) : Registry :=
  ⟨PyDict.set reg.tools name ⟨name, description, parameters, function⟩⟩

/-- Embeds ToolRegistry.get_tool (lines 44-46). -/
def getTool (reg : Registry) (name : String) : Option Tool :=
  PyDict.get reg.tools name

/-- Failures of execute_tool: the ValueError("Tool not found: ...") raised on
a missing name, or an exception escaping the handler. -/
inductive ToolError where
  | notFound (name : String)
  | handlerError (msg : String)
deriving Repr, DecidableEq

/-- str(e) for a tool failure, as the agent loop records it. -/
def ToolError.message : ToolError → String
  | .notFound name => "Tool not found: " ++ name
  | .handlerError msg => msg

/-- Embeds ToolRegistry.execute_tool (lines 60-76): look the tool up, raise
ToolError.notFound when absent, otherwise run the handler (awaited when it is
a coroutine function, called directly otherwise). -/
def executeTool (reg : Registry) (tool_name : String)
    (tool_input : ToolDict) : Except ToolError ToolDict :=
  match getTool reg tool_name with
  | none => .error (.notFound tool_name)
  | some t => (t.function.run tool_input).mapError ToolError.handlerError

end ToolRegistry

/-- C8: a tool registered as "echo" whose handler returns its input echoes
{x: 1} back; executing an unregistered name fails with the tool-not-found
error; and a handler is invoked uniformly — running a synchronous handler and
an asynchronous handler built from the same function gives the same result on
every input. -/
theorem execute_tool_echo_and_missing :
    (ToolRegistry.executeTool
        (ToolRegistry.register ToolRegistry.Registry.empty "echo" "Echo input"
          [] (.sync (fun input => .ok input)))
        "echo" [("x", 1)] = .ok [("x", 1)]) ∧
    (ToolRegistry.executeTool
        (ToolRegistry.register ToolRegistry.Registry.empty "echo" "Echo input"
          [] (.sync (fun input => .ok input)))
        "missing" [] = .error (.notFound "missing")) ∧
    (∀ (f : ToolRegistry.ToolDict → Except String ToolRegistry.ToolDict)
        (input : ToolRegistry.ToolDict),
      ToolRegistry.Handler.run (.sync f) input =
        ToolRegistry.Handler.run (.async f) input) := by
  refine ⟨rfl, rfl, fun f input => rfl⟩

namespace ActionBudget

/-- Embeds the ActionBudgetGuard constructor arguments
(app/security/action_budget.py, lines 12-20), with the defaults from the
source. Timestamps from time.time() are rationals. -/
structure Guard where
  max_actions_per_session : Nat := 10
  max_actions_per_minute : Nat := 20
  reset_after_seconds : ℚ := 3600

/-- The guard's mutable state: session_counts, session_timestamps and
minute_windows (lines 22-24). -/
structure State where
  session_counts : List (String × Nat)
  session_timestamps : List (String × ℚ)
  minute_windows : List (String × List ℚ)

/-- The freshly constructed (empty) guard state. -/
def State.empty : State := ⟨[], [], []⟩

/-- Embeds ActionBudgetGuard.reset (lines 70-74). -/
def reset (st : State) (session_id : String) : State :=
  ⟨PyDict.pop st.session_counts session_id,
   PyDict.pop st.session_timestamps session_id,
   PyDict.pop st.minute_windows session_id⟩

/-- Embeds ActionBudgetGuard.check_budget together with _check_minute_limit
(lines 26-57). now is the value of time.time(). The minute-window filtering
mutates state, so the updated state is returned alongside the verdict. -/
def checkBudget (g : Guard) (st : State) (session_id : String) (now : ℚ) :
    Bool × State :=
  let st1 :=
    match PyDict.get st.session_timestamps session_id with
    | some ts => if g.reset_after_seconds < now - ts then reset st session_id else st
    | none => st
  let session_count := (PyDict.get st1.session_counts session_id).getD 0
  if g.max_actions_per_session ≤ session_count then (false, st1)
  else
    let window := (PyDict.get st1.minute_windows session_id).getD []
    let window := window.filter (fun ts => now - ts < 60)
    let st2 := { st1 with
      minute_windows := PyDict.set st1.minute_windows session_id window }
    (decide (window.length < g.max_actions_per_minute), st2)

/-- Embeds ActionBudgetGuard.increment (lines 59-68). -/
def increment (st : State) (session_id : String) (now : ℚ) : State :=
  ⟨PyDict.set st.session_counts session_id
      ((PyDict.get st.session_counts session_id).getD 0 + 1),
   PyDict.set st.session_timestamps session_id now,
   PyDict.set st.minute_windows session_id
      (((PyDict.get st.minute_windows session_id).getD []) ++ [now])⟩

/-- n successive increments for one session, all stamped at the same clock
reading (n tool invocations recorded within one instant of the window). -/
def incrementN (session_id : String) (t : ℚ) : Nat → State
  | 0 => State.empty
  | n + 1 => increment (incrementN session_id t n) session_id t

theorem incrementN_succ_eq (session_id : String) (t : ℚ) (n : Nat) :
    incrementN session_id t (n + 1) =
      ⟨[(session_id, n + 1)], [(session_id, t)],
       [(session_id, List.replicate (n + 1) t)]⟩ := by
  induction n with
  | zero => simp [incrementN, increment, State.empty, PyDict.set, PyDict.get]
  | succ n ih =>
    rw [incrementN, ih]
    simp [increment, PyDict.set, PyDict.get, List.replicate_succ']

theorem filter_replicate_of_pos {p : ℚ → Bool} {a : ℚ} (h : p a = true)
    (n : Nat) : (List.replicate n a).filter p = List.replicate n a := by
  induction n with
  | zero => rfl
  | succ n ih => simp [List.replicate_succ, List.filter_cons, h, ih]

theorem filter_replicate_of_neg {p : ℚ → Bool} {a : ℚ} (h : p a = false)
    (n : Nat) : (List.replicate n a).filter p = [] := by
  induction n with
  | zero => rfl
  | succ n ih => simp [List.replicate_succ, List.filter_cons, h, ih]

end ActionBudget


namespace ActionBudget

/-- Evaluation of check_budget on the state reached by repeated increments of
a single session: when the idle-reset TTL has not elapsed, the verdict is the
session-cap test followed by the minute-window test. -/
theorem checkBudget_eval (g : Guard) (sid : String) (cnt : Nat) (t0 : ℚ)
    (win : List ℚ) (now : ℚ)
    (hreset : ¬ (g.reset_after_seconds < now - t0)) :
    (checkBudget g ⟨[(sid, cnt)], [(sid, t0)], [(sid, win)]⟩ sid now).1 =
      (if g.max_actions_per_session ≤ cnt then false
       else decide ((win.filter (fun ts => now - ts < 60)).length <
              g.max_actions_per_minute)) := by
  unfold checkBudget
  simp [PyDict.get, hreset]
  by_cases h : g.max_actions_per_session ≤ cnt <;> simp [h]

end ActionBudget

/-- C4 counterexample: with the constructor defaults
(max_actions_per_session = 10, max_actions_per_minute = 20,
reset_after_seconds = 3600), after 20 increments at time 0 the one-minute
window has fully passed at time 61, yet check_budget still returns false —
the lifetime session cap of 10 was also exhausted by the 20 increments —
contradicting the claim that it returns true once the window has passed. -/
theorem check_budget_false_after_window_default :
    (ActionBudget.checkBudget {} (ActionBudget.incrementN "s" 0 20) "s" 61).1
      = false := by
  have h19 : (20 : Nat) = 19 + 1 := rfl
  rw [h19, ActionBudget.incrementN_succ_eq,
    ActionBudget.checkBudget_eval _ _ _ _ _ _ (by norm_num)]
  norm_num

/-- C4 (amended): after at least max_actions_per_minute increments within the
window, check_budget returns false while the window still covers them; once
the clock has advanced beyond 60 seconds it returns true again PROVIDED the
lifetime count stays below max_actions_per_session (and the per-minute cap is
positive and the idle-reset TTL has not elapsed) — with the default
configuration the lifetime cap of 10 < 20 keeps it false instead. -/
theorem check_budget_window_behaviour (g : ActionBudget.Guard) (sid : String)
    (t0 now1 now2 : ℚ) (n : Nat)
    (hmax : g.max_actions_per_minute ≤ n)
    (h1b : now1 - t0 < 60) (h1c : now1 - t0 ≤ g.reset_after_seconds)
    (h2a : 60 < now2 - t0) (h2b : now2 - t0 ≤ g.reset_after_seconds)
    (hsc : n < g.max_actions_per_session)
    (hpm : 0 < g.max_actions_per_minute) :
    (ActionBudget.checkBudget g (ActionBudget.incrementN sid t0 n) sid now1).1
        = false ∧
    (ActionBudget.checkBudget g (ActionBudget.incrementN sid t0 n) sid now2).1
        = true := by
  obtain ⟨m, rfl⟩ : ∃ m, n = m + 1 :=
    ⟨n - 1, (Nat.succ_pred_eq_of_pos (lt_of_lt_of_le hpm hmax)).symm⟩
  rw [ActionBudget.incrementN_succ_eq]
  have hc : ¬ (g.max_actions_per_session ≤ m + 1) := not_le.mpr hsc
  constructor
  · rw [ActionBudget.checkBudget_eval _ _ _ _ _ _ (not_lt.mpr h1c), if_neg hc]
    have hfil : (List.replicate (m + 1) t0).filter
        (fun ts => decide (now1 - ts < 60)) = List.replicate (m + 1) t0 :=
      ActionBudget.filter_replicate_of_pos (by simpa using h1b) _
    rw [hfil, List.length_replicate]
    simpa using not_lt.mpr hmax
  · rw [ActionBudget.checkBudget_eval _ _ _ _ _ _ (not_lt.mpr h2b), if_neg hc]
    have hfil : (List.replicate (m + 1) t0).filter
        (fun ts => decide (now2 - ts < 60)) = [] :=
      ActionBudget.filter_replicate_of_neg
        (by simpa using not_lt.mpr (le_of_lt h2a)) _
    rw [hfil]
    simpa using hpm

/-- C4 witness: a guard configured with lifetime cap 100, per-minute cap 20
and TTL 3600; 20 increments at time 0 make check_budget false at time 30 and
true again at time 61. -/
theorem check_budget_window_behaviour_witness :
    (ActionBudget.checkBudget ⟨100, 20, 3600⟩
        (ActionBudget.incrementN "s" 0 20) "s" 30).1 = false ∧
    (ActionBudget.checkBudget ⟨100, 20, 3600⟩
        (ActionBudget.incrementN "s" 0 20) "s" 61).1 = true :=
  check_budget_window_behaviour ⟨100, 20, 3600⟩ "s" 0 30 61 20
    (by norm_num) (by norm_num) (by norm_num) (by norm_num) (by norm_num)
    (by norm_num) (by norm_num)

namespace Conversation

/-- A stored conversation message (app/memory/conversation_manager.py,
add_message lines 44-49): role, content and the utcnow timestamp string; the
synthetic summary message carries no timestamp. The metadata dict is omitted:
no verified property reads it. -/
structure Message where
  role : String
  content : String
  timestamp : Option String
deriving Repr, DecidableEq

/-- The manager's configuration and state (lines 15-25). -/
structure Manager where
  max_history : Nat
  max_history_length : Nat
  summarization_threshold : Nat
  conversations : List (String × List Message)
  summaries : List (String × String)

/-- Embeds the constructor (lines 15-23): max_history_length falls back to
max_history when the given value is falsy (Python: a or b). -/
def mkManager (max_history max_history_length summarization_threshold : Nat) :
    Manager :=
  ⟨max_history,
   if max_history_length = 0 then max_history else max_history_length,
   summarization_threshold, [], []⟩

/-- Python len(content.split()): the number of maximal runs of
non-whitespace characters. -/
def wordRuns : List Char → Bool → Nat
  | [], _ => 0
  | c :: rest, inWord =>
    if c.isWhitespace then wordRuns rest false
    else (if inWord then 0 else 1) + wordRuns rest true

/-- Word count of a string, as Python str.split() produces it. -/
def wordCount (s : String) : Nat := wordRuns s.data false

/-- The token estimate len(content.split()) * 1.3 used by get_context. -/
def estTokens (s : String) : ℚ := (wordCount s : ℚ) * (13 / 10)

/-- Embeds ConversationManager._summarize_conversation (lines 133-154),
run to completion (the asyncio.run path taken when add_message is called
outside a running event loop): all but the last max_history_length messages
are condensed into the fixed summary string and dropped. Python
messages[:-k] is empty when k = 0. -/
def summarizeConversation (st : Manager) (session_id : String) : Manager :=
  let messages := (PyDict.get st.conversations session_id).getD []
  let to_summarize :=
    if st.max_history_length = 0 then []
    else messages.take (messages.length - st.max_history_length)
  if to_summarize = [] then st
  else
    let summary :=
      "Conversation covered " ++ toString to_summarize.length ++ " messages."
    { st with
      summaries := PyDict.set st.summaries session_id summary,
      conversations := PyDict.set st.conversations session_id
        (messages.drop (messages.length - st.max_history_length)) }

/-- Embeds ConversationManager.add_message (lines 33-65) with the
summarization coroutine running synchronously: append the message, then
summarize when the live count exceeds summarization_threshold. -/
def addMessage (st : Manager) (conversation_id role content ts : String) :
    Manager :=
  let msgs := (PyDict.get st.conversations conversation_id).getD [] ++
    [⟨role, content, some ts⟩]
  let st1 := { st with
    conversations := PyDict.set st.conversations conversation_id msgs }
  if st1.summarization_threshold < msgs.length then
    summarizeConversation st1 conversation_id
  else st1

/-- Feeding n numbered user messages into one session. -/
def feedN (st : Manager) (session_id : String) : Nat → Manager
  | 0 => st
  | n + 1 => addMessage (feedN st session_id n) session_id "user"
      ("message " ++ toString n) "t"

/-- The synthetic system message get_context prepends for the summary. -/
def summaryMessage (summary : String) : Message :=
  ⟨"system", "Previous conversation summary: " ++ summary, none⟩

/-- The token-fitting backward walk of get_context (lines 98-106): the
messages are visited most-recent first (the argument list is the reversed
history) and the walk stops at the first message that would overflow the
budget; the kept messages are assembled back in chronological order. Returns
the kept context and the accumulated token total. -/
def fitMessages (max_tokens : ℚ) : List Message → ℚ → List Message × ℚ
  | [], total => ([], total)
  | m :: rest, total =>
    let message_tokens := estTokens m.content
    if max_tokens < total + message_tokens then ([], total)
    else
      let res := fitMessages max_tokens rest (total + message_tokens)
      (res.1 ++ [m], res.2)

/-- Embeds ConversationManager.get_context (lines 83-118). -/
def getContext (st : Manager) (session_id : String) (max_tokens : ℚ) :
    List Message :=
  match PyDict.get st.conversations session_id with
  | none => []
  | some messages =>
    let fit := fitMessages max_tokens messages.reverse 0
    match PyDict.get st.summaries session_id with
    | none => fit.1
    | some summary =>
      let summary_tokens := estTokens summary
      if fit.2 + summary_tokens < max_tokens then
        summaryMessage summary :: fit.1
      else fit.1

end Conversation

/-- The concrete C2 scenario: a ConversationManager built with
max_history = 10 and summarization_threshold = 20, fed 25 messages for one
session. -/
def c2Store : Conversation.Manager :=
  Conversation.feedN (Conversation.mkManager 10 10 20) "s" 25

/-- C2 counterexample: feeding 25 messages into a store constructed with
max_history = 10 and summarization_threshold = 20 leaves 14 live messages,
not 10 — summarization fires once, when message 21 arrives (condensing 11
messages and trimming to 10), and messages 22-25 then accumulate without
re-triggering it. -/
theorem conversation_25_messages_not_10_live :
    ((PyDict.get c2Store.conversations "s").getD []).length ≠ 10 := by decide

/-- C2 (amended): feeding 25 messages with summarization_threshold = 20 and
max_history = 10 results in the non-empty summary "Conversation covered 11
messages." and exactly 14 live messages remaining. -/
theorem conversation_25_messages_result :
    ((PyDict.get c2Store.conversations "s").getD []).length = 14 ∧
    PyDict.get c2Store.summaries "s" =
      some "Conversation covered 11 messages." ∧
    "Conversation covered 11 messages." ≠ "" := by decide

namespace Conversation

/-- Total estimated token count of a message list, each message at
word count times 1.3. -/
def sumTokens (l : List Message) : ℚ :=
  (l.map (fun m => estTokens m.content)).sum

theorem estTokens_nonneg (s : String) : 0 ≤ estTokens s := by
  unfold estTokens
  positivity

theorem sumTokens_nonneg (l : List Message) : 0 ≤ sumTokens l := by
  unfold sumTokens
  induction l with
  | nil => simp
  | cons m rest ih =>
    simp only [List.map_cons, List.sum_cons]
    exact add_nonneg (estTokens_nonneg _) ih

theorem sumTokens_reverse (l : List Message) :
    sumTokens l.reverse = sumTokens l := by
  simp [sumTokens, List.sum_reverse]

/-- The backward token-fitting walk keeps a prefix of its (reversed) input,
reversed back, and accumulates exactly the kept tokens. -/
theorem fitMessages_spec (max_tokens : ℚ) :
    ∀ (rl : List Message) (total : ℚ),
      ∃ k, (fitMessages max_tokens rl total).1 = (rl.take k).reverse ∧
        (fitMessages max_tokens rl total).2 =
          total + sumTokens (rl.take k) := by
  intro rl
  induction rl with
  | nil => intro total; exact ⟨0, by simp [fitMessages, sumTokens]⟩
  | cons m rest ih =>
    intro total
    by_cases h : max_tokens < total + estTokens m.content
    · refine ⟨0, ?_, ?_⟩ <;> simp [fitMessages, h, sumTokens]
    · obtain ⟨k, h1, h2⟩ := ih (total + estTokens m.content)
      refine ⟨k + 1, ?_, ?_⟩
      · simp [fitMessages, h, h1]
      · simp only [fitMessages, if_neg h, h2, List.take_succ_cons, sumTokens,
          List.map_cons, List.sum_cons]
        ring

/-- The running total of the token-fitting walk never exceeds the budget when
it starts within it. -/
theorem fitMessages_total_le (max_tokens : ℚ) :
    ∀ (rl : List Message) (total : ℚ), total ≤ max_tokens →
      (fitMessages max_tokens rl total).2 ≤ max_tokens := by
  intro rl
  induction rl with
  | nil => intro total h; simpa [fitMessages] using h
  | cons m rest ih =>
    intro total h
    by_cases hov : max_tokens < total + estTokens m.content
    · simpa [fitMessages, hov] using h
    · simpa [fitMessages, hov] using ih (total + estTokens m.content)
        (not_lt.mp hov)

end Conversation

/-- C10 (amended): for every session and nonnegative token budget,
get_context returns a suffix of the stored message list in its original
chronological order, optionally preceded by the synthetic summary message;
the token estimate of the returned context — counting each live message at
word count times 1.3 and the summary, when present, by its raw summary string
(as the source does, without the "Previous conversation summary:" prefix) —
never exceeds max_tokens; and an unknown session id yields the empty list. -/
theorem get_context_order_and_budget (st : Conversation.Manager)
    (sid : String) (max_tokens : ℚ) (hmax : 0 ≤ max_tokens) :
    (PyDict.get st.conversations sid = none →
      Conversation.getContext st sid max_tokens = []) ∧
    (∀ msgs, PyDict.get st.conversations sid = some msgs →
      ∃ j, Conversation.sumTokens (msgs.drop j) ≤ max_tokens ∧
        (Conversation.getContext st sid max_tokens = msgs.drop j ∨
         ∃ s, PyDict.get st.summaries sid = some s ∧
           Conversation.getContext st sid max_tokens =
             Conversation.summaryMessage s :: msgs.drop j ∧
           Conversation.sumTokens (msgs.drop j) +
             Conversation.estTokens s ≤ max_tokens)) := by
  constructor
  · intro h
    simp [Conversation.getContext, h]
  · intro msgs hmsgs
    obtain ⟨k, hk1, hk2⟩ :=
      Conversation.fitMessages_spec max_tokens msgs.reverse 0
    have hdrop : (msgs.reverse.take k).reverse =
        msgs.drop (msgs.length - k) := by
      rw [← List.rtake_eq_reverse_take_reverse, List.rtake]
    have hsum : Conversation.sumTokens (msgs.drop (msgs.length - k)) =
        (Conversation.fitMessages max_tokens msgs.reverse 0).2 := by
      rw [hk2, ← hdrop, Conversation.sumTokens_reverse, zero_add]
    have hle : (Conversation.fitMessages max_tokens msgs.reverse 0).2 ≤
        max_tokens := Conversation.fitMessages_total_le max_tokens _ 0 hmax
    refine ⟨msgs.length - k, by rw [hsum]; exact hle, ?_⟩
    unfold Conversation.getContext
    rw [hmsgs]
    cases hs : PyDict.get st.summaries sid with
    | none =>
      left
      simp only []
      rw [hk1, hdrop]
    | some s =>
      by_cases hfit : (Conversation.fitMessages max_tokens msgs.reverse 0).2 +
          Conversation.estTokens s < max_tokens
      · right
        refine ⟨s, rfl, ?_, ?_⟩
        · simp only [if_pos hfit]
          rw [hk1, hdrop]
        · rw [hsum]; exact le_of_lt hfit
      · left
        simp only [if_neg hfit]
        rw [hk1, hdrop]

/-- The concrete C10 scenario: one session "s" holding a single three-word
user message, with a one-word rolling summary "z" on file. -/
def c10Store : Conversation.Manager :=
  ⟨10, 10, 20, [("s", [⟨"user", "a b c", some "t"⟩])], [("s", "z")]⟩

/-- C10 counterexample: with a budget of 6 tokens, get_context returns the
three-word message (3.9 tokens) and prepends the summary because the raw
summary "z" fits (3.9 + 1.3 < 6) — but the synthetic summary message's
actual content "Previous conversation summary: z" has four words
(5.2 tokens), so the returned context totals 9.1 tokens, exceeding the
budget of 6. -/
theorem get_context_exceeds_budget_counterexample :
    ¬ (Conversation.sumTokens (Conversation.getContext c10Store "s" 6) ≤ 6) := by
  have he1 : Conversation.estTokens "a b c" = 39 / 10 := by
    rw [Conversation.estTokens, show Conversation.wordCount "a b c" = 3 from rfl]
    norm_num
  have he2 : Conversation.estTokens "z" = 13 / 10 := by
    rw [Conversation.estTokens, show Conversation.wordCount "z" = 1 from rfl]
    norm_num
  have he3 : Conversation.estTokens "Previous conversation summary: z" =
      52 / 10 := by
    rw [Conversation.estTokens,
      show Conversation.wordCount "Previous conversation summary: z" = 4
        from rfl]
    norm_num
  have hctx : Conversation.getContext c10Store "s" 6 =
      [Conversation.summaryMessage "z", ⟨"user", "a b c", some "t"⟩] := by
    norm_num [Conversation.getContext, c10Store, PyDict.get,
      Conversation.fitMessages, he1, he2]
  rw [hctx]
  simp only [Conversation.sumTokens, List.map_cons, List.map_nil,
    List.sum_cons, List.sum_nil, Conversation.summaryMessage,
    show ("Previous conversation summary: " ++ "z") =
      "Previous conversation summary: z" from rfl, he1, he3]
  norm_num

/-- C10 witness: the amended get_context property instantiated at the
concrete store with session "s" and a budget of 6 tokens. -/
theorem get_context_order_and_budget_witness :
    (PyDict.get c10Store.conversations "s" = none →
      Conversation.getContext c10Store "s" 6 = []) ∧
    (∀ msgs, PyDict.get c10Store.conversations "s" = some msgs →
      ∃ j, Conversation.sumTokens (msgs.drop j) ≤ 6 ∧
        (Conversation.getContext c10Store "s" 6 = msgs.drop j ∨
         ∃ s, PyDict.get c10Store.summaries "s" = some s ∧
           Conversation.getContext c10Store "s" 6 =
             Conversation.summaryMessage s :: msgs.drop j ∧
           Conversation.sumTokens (msgs.drop j) +
             Conversation.estTokens s ≤ 6)) :=
  get_context_order_and_budget c10Store "s" 6 (by norm_num)


namespace VectorStore

/-- Embeds InMemoryVectorStore (app/retrieval/vector_store.py, lines 12-20):
the FAISS index contents are the stored (normalized) vectors, aligned with
the chunk list; id_to_idx maps chunk_id to position. V is the vector type;
L2 normalization and the inner product are the opaque numeric operations of
faiss, passed in as parameters. -/
structure Store (V : Type) where
  dimension : Nat
  chunks : List Chunk
  vecs : List V
  id_to_idx : List (String × Nat)

/-- A freshly initialized store (empty IndexFlatIP). -/
def emptyStore (V : Type) (dimension : Nat) : Store V :=
  ⟨dimension, [], [], []⟩

/-- Embeds InMemoryVectorStore.size (lines 128-131). -/
def Store.size {V : Type} (st : Store V) : Nat := st.chunks.length

/-- Embeds InMemoryVectorStore.add (lines 32-57): the length mismatch raises
ValueError; otherwise the normalized embeddings go into the index, the chunks
are appended, and id_to_idx records each chunk_id at start_idx + i. -/
def add {V : Type} (norm : V → V) (st : Store V) (embeddings : List V)
    (chunks : List Chunk) : Except String (Store V) :=
  if embeddings.length ≠ chunks.length then
    .error "Number of embeddings must match number of chunks"
  else
    let start_idx := st.chunks.length
    .ok { st with
      vecs := st.vecs ++ embeddings.map norm,
      chunks := st.chunks ++ chunks,
      id_to_idx := chunks.enum.foldl
        (fun m p => PyDict.set m p.2.chunk_id (start_idx + p.1)) st.id_to_idx }

/-- The order in which the flat index reports search hits: descending score,
ties broken by the smaller (earlier-inserted) index. -/
def searchRel (a b : Nat × ℚ) : Prop :=
  b.2 < a.2 ∨ (a.2 = b.2 ∧ a.1 ≤ b.1)

instance : DecidableRel searchRel :=
  fun a b => inferInstanceAs (Decidable (b.2 < a.2 ∨ (a.2 = b.2 ∧ a.1 ≤ b.1)))

instance : IsTotal (Nat × ℚ) searchRel := by
  constructor
  intro a b
  rcases lt_trichotomy a.2 b.2 with h | h | h
  · exact Or.inr (Or.inl h)
  · rcases le_total a.1 b.1 with h1 | h1
    · exact Or.inl (Or.inr ⟨h, h1⟩)
    · exact Or.inr (Or.inr ⟨h.symm, h1⟩)
  · exact Or.inl (Or.inl h)

instance : IsTrans (Nat × ℚ) searchRel := by
  constructor
  intro a b c hab hbc
  rcases hab with h1 | ⟨h1, h1i⟩ <;> rcases hbc with h2 | ⟨h2, h2i⟩
  · exact Or.inl (lt_trans h2 h1)
  · exact Or.inl (h2 ▸ h1)
  · exact Or.inl (h1 ▸ h2)
  · exact Or.inr ⟨h1.trans h2, le_trans h1i h2i⟩

/-- Modelled from the spec: faiss.IndexFlatIP.search is not repository code;
per §4.1 it performs exact inner-product search, returning hit indices in
descending-similarity order with ties broken by original insertion order
(stable). Each stored vector is scored against the (normalized) query. -/
def searchIdx {V : Type} (ip : V → V → ℚ) (st : Store V) (qn : V) :
    List (Nat × ℚ) :=
  List.insertionSort searchRel (st.vecs.map (ip qn)).enum

/-- The body of the result loop of InMemoryVectorStore.search (lines 82-86):
a hit index inside the chunk list range resolves to its chunk, anything else
is dropped. -/
def resolveHit {V : Type} (st : Store V) (p : Nat × ℚ) :
    Option (Chunk × ℚ) :=
  match st.chunks.get? p.1 with
  | some c => some (c, p.2)
  | none => none

/-- Embeds InMemoryVectorStore.search (lines 59-87): empty store returns [],
the query is normalized, k = min(top_k, len(chunks)), and each valid hit
index is resolved to its chunk. -/
def search {V : Type} (ip : V → V → ℚ) (norm : V → V) (st : Store V)
    (query_embedding : V) (top_k : Nat) : List (Chunk × ℚ) :=
  if st.chunks.length = 0 then []
  else
    let qn := norm query_embedding
    let k := min top_k st.chunks.length
    ((searchIdx ip st qn).take k).filterMap (resolveHit st)

theorem resolveHit_eq_some {V : Type} (st : Store V) (p : Nat × ℚ)
    (h : p.1 < st.chunks.length) :
    resolveHit st p = some (st.chunks.get ⟨p.1, h⟩, p.2) := by
  simp [resolveHit, List.getElem?_eq_getElem h]

theorem resolveHit_snd {V : Type} {st : Store V} {p : Nat × ℚ}
    {y : Chunk × ℚ} (h : resolveHit st p = some y) : y.2 = p.2 := by
  unfold resolveHit at h
  cases hc : st.chunks.get? p.1 with
  | none => rw [hc] at h; exact absurd h (by simp)
  | some c => rw [hc] at h; cases h; rfl

theorem length_filterMap_resolve {V : Type} (st : Store V)
    (l : List (Nat × ℚ)) (h : ∀ p ∈ l, p.1 < st.chunks.length) :
    (l.filterMap (resolveHit st)).length = l.length := by
  induction l with
  | nil => rfl
  | cons p rest ih =>
    have hp : p.1 < st.chunks.length := h p (List.mem_cons_self _ _)
    rw [List.filterMap_cons, resolveHit_eq_some st p hp]
    simp only [List.length_cons]
    rw [ih (fun q hq => h q (List.mem_cons_of_mem _ hq))]

theorem pairwise_filterMap_resolve {V : Type} (st : Store V)
    (l : List (Nat × ℚ)) (hpw : List.Pairwise searchRel l) :
    List.Pairwise (fun (a b : Chunk × ℚ) => b.2 ≤ a.2)
      (l.filterMap (resolveHit st)) := by
  induction l with
  | nil => exact List.Pairwise.nil
  | cons p rest ih =>
    rcases List.pairwise_cons.mp hpw with ⟨hrel, hrest⟩
    rw [List.filterMap_cons]
    cases hc : resolveHit st p with
    | none => exact ih hrest
    | some cp =>
      refine List.pairwise_cons.mpr ⟨?_, ih hrest⟩
      intro y hy
      obtain ⟨q, hq, hqy⟩ := List.mem_filterMap.mp hy
      rw [resolveHit_snd hqy, resolveHit_snd hc]
      rcases hrel q hq with hlt | ⟨heq, _⟩
      · exact le_of_lt hlt
      · exact le_of_eq heq.symm

end VectorStore

namespace VectorStore

theorem fst_lt_of_mem_enum {α : Type} {l : List α} {p : Nat × α}
    (h : p ∈ l.enum) : p.1 < l.length := by
  have h2 := List.mem_enum_iff_getElem?.mp h
  by_contra hge
  rw [List.getElem?_eq_none (le_of_not_lt hge)] at h2
  exact absurd h2 (by simp)

end VectorStore

/-- C6: adding N chunks (with matching embeddings) to a fresh VectorIndex
yields size = N; a search then returns exactly min(k, N) results whose
scores are non-increasing, with equal-score hits ordered by original
insertion index; and searching an empty index returns the empty list rather
than failing. -/
theorem vector_index_add_search_spec (V : Type) (ip : V → V → ℚ)
    (norm : V → V) (dimension : Nat) (embs : List V) (cs : List Chunk)
    (q : V) (k : Nat) (hlen : embs.length = cs.length) :
    ∃ st, VectorStore.add norm (VectorStore.emptyStore V dimension) embs cs
        = .ok st ∧
      st.size = cs.length ∧
      (VectorStore.search ip norm st q k).length = min k cs.length ∧
      List.Pairwise (fun (a b : Chunk × ℚ) => b.2 ≤ a.2)
        (VectorStore.search ip norm st q k) ∧
      List.Pairwise (fun (a b : Nat × ℚ) => a.2 = b.2 → a.1 ≤ b.1)
        (VectorStore.searchIdx ip st (norm q)) ∧
      VectorStore.search ip norm (VectorStore.emptyStore V dimension) q k
        = [] := by
  have hadd : VectorStore.add norm (VectorStore.emptyStore V dimension)
      embs cs = .ok
      ⟨dimension, cs, embs.map norm,
        cs.enum.foldl (fun m p => PyDict.set m p.2.chunk_id (0 + p.1)) []⟩ := by
    unfold VectorStore.add VectorStore.emptyStore
    rw [if_neg (by simp [hlen])]
    rfl
  refine ⟨_, hadd, ?_, ?_, ?_, ?_, ?_⟩
  · simp [VectorStore.Store.size]
  · by_cases hcs0 : cs.length = 0
    · simp [VectorStore.search, hcs0, Nat.min_zero]
    · have hsl : (VectorStore.searchIdx ip
          ⟨dimension, cs, embs.map norm,
            cs.enum.foldl (fun m p => PyDict.set m p.2.chunk_id (0 + p.1)) []⟩
          (norm q)).length = cs.length := by
        unfold VectorStore.searchIdx
        rw [List.length_insertionSort, List.enum_length, List.length_map,
          List.length_map, hlen]
      unfold VectorStore.search
      rw [if_neg hcs0, VectorStore.length_filterMap_resolve, List.length_take,
        hsl]
      · simp [min_assoc]
      · intro p hp
        have hp2 := List.mem_of_mem_take hp
        have hp3 : p ∈ ((embs.map norm).map (ip (norm q))).enum :=
          (List.perm_insertionSort VectorStore.searchRel _).mem_iff.mp hp2
        have := VectorStore.fst_lt_of_mem_enum hp3
        simpa [hlen] using this
  · by_cases hcs0 : cs.length = 0
    · simp [VectorStore.search, hcs0]
    · unfold VectorStore.search
      rw [if_neg hcs0]
      apply VectorStore.pairwise_filterMap_resolve
      exact List.Pairwise.sublist (List.take_sublist _ _)
        (List.sorted_insertionSort VectorStore.searchRel _)
  · have hs := List.sorted_insertionSort VectorStore.searchRel
      ((embs.map norm).map (ip (norm q))).enum
    refine List.Pairwise.imp ?_ hs
    intro a b hab heq
    rcases hab with hlt | ⟨_, hle⟩
    · exact absurd (heq ▸ hlt) (lt_irrefl _)
    · exact hle
  · simp [VectorStore.search, VectorStore.emptyStore]

/-- C6 witness: two chunks indexed over rational one-dimensional vectors with
multiplication as the inner product; the search contract instantiated at
k = 3. -/
theorem vector_index_add_search_spec_witness :
    ∃ st, VectorStore.add id (VectorStore.emptyStore ℚ 1)
        [(1 : ℚ), (2 : ℚ)] [⟨"ta", "a", "d"⟩, ⟨"tb", "b", "d"⟩] = .ok st ∧
      st.size = [⟨"ta", "a", "d"⟩, (⟨"tb", "b", "d"⟩ : Chunk)].length ∧
      (VectorStore.search (fun x y => x * y) id st 1 3).length =
        min 3 [⟨"ta", "a", "d"⟩, (⟨"tb", "b", "d"⟩ : Chunk)].length ∧
      List.Pairwise (fun (a b : Chunk × ℚ) => b.2 ≤ a.2)
        (VectorStore.search (fun x y => x * y) id st 1 3) ∧
      List.Pairwise (fun (a b : Nat × ℚ) => a.2 = b.2 → a.1 ≤ b.1)
        (VectorStore.searchIdx (fun x y => x * y) st (id 1)) ∧
      VectorStore.search (fun x y => x * y) id
        (VectorStore.emptyStore ℚ 1) 1 3 = [] :=
  vector_index_add_search_spec ℚ (fun x y => x * y) id 1
    [(1 : ℚ), (2 : ℚ)] [⟨"ta", "a", "d"⟩, ⟨"tb", "b", "d"⟩] 1 3 (by simp)

namespace Hybrid

/-- One value of the combined_scores dict of HybridSearchStore.hybrid_search
(app/retrieval/hybrid_search.py, lines 53-76): the chunk together with its
vector and (normalized) BM25 contributions, either defaulting to 0. -/
structure Entry where
  chunk : Chunk
  vector_score : ℚ
  bm25_score : ℚ
deriving Repr, DecidableEq

/-- Python max() over a list of floats: none on the empty list. -/
def listMax : List ℚ → Option ℚ
  | [] => none
  | x :: xs => some (xs.foldl max x)

/-- Line 64: max_bm25 = max(bm25_scores) if the list is non-empty and its
maximum is positive, else 1.0. -/
def maxBm (bm25_scores : List ℚ) : ℚ :=
  match listMax bm25_scores with
  | some m => if 0 < m then m else 1
  | none => 1

/-- Lines 70 and 75: score / max_bm25 if max_bm25 > 0 else 0. -/
def normBm (bm25_scores : List ℚ) (score : ℚ) : ℚ :=
  if 0 < maxBm bm25_scores then score / maxBm bm25_scores else 0

/-- Lines 56-61: a vector hit enters the combined dict with bm25_score 0,
overwriting any previous entry under the same chunk_id. -/
def addVector (m : List (String × Entry)) (c : Chunk) (s : ℚ) :
    List (String × Entry) :=
  PyDict.set m c.chunk_id ⟨c, s, 0⟩

/-- The combined dict after the vector loop (lines 53-61). -/
def vectorPhase (vector_results : List (Chunk × ℚ)) :
    List (String × Entry) :=
  vector_results.foldl (fun m p => addVector m p.1 p.2) []

/-- Line 70: in-place mutation of the bm25_score of the entry stored under a
key. -/
def setBm (m : List (String × Entry)) (k : String) (b : ℚ) :
    List (String × Entry) :=
  m.map (fun p => if p.1 = k then (p.1, ⟨p.2.chunk, p.2.vector_score, b⟩)
    else p)

/-- One iteration of the BM25 loop (lines 66-76): an index beyond the chunk
list is skipped; a known chunk_id gets its bm25_score set; an unseen one is
inserted with vector_score 0. -/
def bmStep (chunks : List Chunk) (bm : List ℚ)
    (m : List (String × Entry)) (p : Nat × ℚ) : List (String × Entry) :=
  match chunks.get? p.1 with
  | none => m
  | some c =>
    if (PyDict.get m c.chunk_id).isSome then
      setBm m c.chunk_id (normBm bm p.2)
    else PyDict.set m c.chunk_id ⟨c, 0, normBm bm p.2⟩

/-- The full combined_scores dict (lines 53-76). -/
def combinedEntries (vector_results : List (Chunk × ℚ)) (bm : List ℚ)
    (chunks : List Chunk) : List (String × Entry) :=
  bm.enum.foldl (bmStep chunks bm) (vectorPhase vector_results)

/-- Line 82: combined_score = alpha * vector_score + (1 - alpha) *
bm25_score. -/
def combinedScore (alpha : ℚ) (e : Entry) : ℚ :=
  alpha * e.vector_score + (1 - alpha) * e.bm25_score

/-- The score-fusion tail of hybrid_search (lines 78-88): weigh every entry,
sort descending by combined score and keep the top k. The vector results and
the BM25 score vector are the search outputs consumed by the fusion. -/
def hybridFuse (vector_results : List (Chunk × ℚ)) (bm : List ℚ)
    (chunks : List Chunk) (alpha : ℚ) (top_k : Nat) : List (Chunk × ℚ) :=
  let results := (combinedEntries vector_results bm chunks).map
    (fun p => (p.2.chunk, combinedScore alpha p.2))
  (sortByScoreDesc results).take top_k

theorem le_foldl_max_init : ∀ (xs : List ℚ) (x : ℚ), x ≤ xs.foldl max x
  | [], x => le_refl x
  | y :: ys, x => le_trans (le_max_left x y) (le_foldl_max_init ys (max x y))

theorem le_foldl_max_mem :
    ∀ (xs : List ℚ) (x s : ℚ), s ∈ xs → s ≤ xs.foldl max x
  | [], _, _, h => absurd h (List.not_mem_nil _)
  | y :: ys, x, s, h => by
    rcases List.mem_cons.mp h with rfl | hm
    · exact le_trans (le_max_right x s) (le_foldl_max_init ys (max x s))
    · exact le_foldl_max_mem ys (max x y) s hm

theorem le_listMax {l : List ℚ} {s : ℚ} (h : s ∈ l) :
    ∃ M, listMax l = some M ∧ s ≤ M := by
  induction l with
  | nil => cases h
  | cons x xs ih =>
    refine ⟨xs.foldl max x, rfl, ?_⟩
    rcases List.mem_cons.mp h with rfl | hmem
    · exact le_foldl_max_init xs s
    · exact le_foldl_max_mem xs x s hmem

theorem maxBm_pos (bm : List ℚ) : 0 < maxBm bm := by
  unfold maxBm
  cases h : listMax bm with
  | none => norm_num
  | some m =>
    by_cases hm : 0 < m
    · simp [hm]
    · simp [hm]

theorem normBm_bounds {bm : List ℚ} {s : ℚ} (hb : ∀ x ∈ bm, 0 ≤ x)
    (hs : s ∈ bm) : 0 ≤ normBm bm s ∧ normBm bm s ≤ 1 := by
  have hpos := maxBm_pos bm
  have hs0 : 0 ≤ s := hb s hs
  obtain ⟨M, hM, hsM⟩ := le_listMax hs
  unfold normBm
  rw [if_pos hpos]
  constructor
  · exact div_nonneg hs0 (le_of_lt hpos)
  · unfold maxBm
    rw [hM]
    show s / (if 0 < M then M else 1) ≤ 1
    by_cases hMpos : 0 < M
    · rw [if_pos hMpos]
      exact (div_le_one hMpos).mpr hsM
    · rw [if_neg hMpos]
      have : s = 0 := le_antisymm (le_trans hsM (not_lt.mp hMpos)) hs0
      rw [this]
      norm_num

end Hybrid

namespace Hybrid

theorem foldl_inv_mem {α β : Type} (l : List α) (f : β → α → β)
    (P : β → Prop) (h : ∀ b a, a ∈ l → P b → P (f b a)) :
    ∀ b, P b → P (l.foldl f b) := by
  induction l with
  | nil => intro b hb; exact hb
  | cons a rest ih =>
    intro b hb
    exact ih (fun b2 a2 ha2 hb2 => h b2 a2 (List.mem_cons_of_mem _ ha2) hb2)
      (f b a) (h b a (List.mem_cons_self _ _) hb)

theorem mem_setBm {m : List (String × Entry)} {k : String} {b : ℚ}
    {q : String × Entry} (hq : q ∈ setBm m k b) :
    ∃ q0 ∈ m, q = q0 ∨
      (q0.1 = k ∧ q = (q0.1, ⟨q0.2.chunk, q0.2.vector_score, b⟩)) := by
  obtain ⟨q0, hq0, hf⟩ := List.mem_map.mp hq
  refine ⟨q0, hq0, ?_⟩
  by_cases h : q0.1 = k
  · right
    exact ⟨h, by rw [← hf]; simp [h]⟩
  · left
    rw [← hf]
    simp [h]

theorem get_setBm_ne (m : List (String × Entry)) (k k2 : String) (b : ℚ)
    (h : k2 ≠ k) : PyDict.get (setBm m k b) k2 = PyDict.get m k2 := by
  induction m with
  | nil => rfl
  | cons p rest ih =>
    by_cases hp2 : p.1 = k2
    · have hp : ¬ p.1 = k := fun hc => h (hp2.symm.trans hc)
      simp [setBm, PyDict.get, hp, hp2, h]
    · by_cases hp : p.1 = k
      · have hk2 : ¬ (p.1 = k2) := hp2
        simp only [setBm, List.map_cons, if_pos hp, PyDict.get, hk2,
          if_neg hk2]
        simpa [setBm] using ih
      · simp only [setBm, List.map_cons, if_neg hp, PyDict.get,
          if_neg hp2]
        simpa [setBm] using ih

/-- The per-entry invariant of the combined dict: the key is the chunk's id,
the chunk belongs to the corpus, the vector score is 0 or the chunk's score
in the vector results, and the BM25 score is 0 or the normalized score at the
chunk's corpus position. -/
def EntryInv (vr : List (Chunk × ℚ)) (bm : List ℚ) (chunks : List Chunk)
    (q : String × Entry) : Prop :=
  q.1 = q.2.chunk.chunk_id ∧ q.2.chunk ∈ chunks ∧
  (q.2.vector_score = 0 ∨ (q.2.chunk, q.2.vector_score) ∈ vr) ∧
  (q.2.bm25_score = 0 ∨ ∃ i s, bm.get? i = some s ∧
    chunks.get? i = some q.2.chunk ∧ q.2.bm25_score = normBm bm s)

theorem combined_inv (vr : List (Chunk × ℚ)) (bm : List ℚ)
    (chunks : List Chunk) (hsub : ∀ p ∈ vr, p.1 ∈ chunks)
    (hndc : (chunks.map Chunk.chunk_id).Nodup) :
    ∀ q ∈ combinedEntries vr bm chunks, EntryInv vr bm chunks q := by
  have hvec : ∀ q ∈ vectorPhase vr, EntryInv vr bm chunks q := by
    unfold vectorPhase
    refine foldl_inv_mem vr (fun m p => addVector m p.1 p.2)
      (fun m => ∀ q ∈ m, EntryInv vr bm chunks q) ?_ [] ?_
    · intro b a ha hb q hq
      rcases PyDict.mem_set hq with hold | hnew
      · exact hb q hold
      · subst hnew
        exact ⟨rfl, hsub a ha, Or.inr ha, Or.inl rfl⟩
    · intro q hq
      cases hq
  unfold combinedEntries
  refine foldl_inv_mem bm.enum (bmStep chunks bm)
    (fun m => ∀ q ∈ m, EntryInv vr bm chunks q) ?_ (vectorPhase vr) hvec
  intro b a ha hb q hq
  unfold bmStep at hq
  cases hc : chunks.get? a.1 with
  | none => simp only [hc] at hq; exact hb q hq
  | some c =>
    simp only [hc] at hq
    have hc2 : chunks[a.1]? = some c := by
      rw [← List.get?_eq_getElem?]; exact hc
    have hcm : c ∈ chunks := List.getElem?_mem hc2
    have hbm : bm.get? a.1 = some a.2 := by
      rw [List.get?_eq_getElem?]; exact List.mem_enum_iff_getElem?.mp ha
    by_cases hin : (PyDict.get b c.chunk_id).isSome
    · rw [if_pos hin] at hq
      obtain ⟨q0, hq0, hcase⟩ := mem_setBm hq
      obtain ⟨hk0, hm0, hv0, _⟩ := hb q0 hq0
      rcases hcase with heq | ⟨hkey, heq⟩
      · exact heq ▸ hb q0 hq0
      · subst heq
        have hchunk : q0.2.chunk = c :=
          List.inj_on_of_nodup_map hndc hm0 hcm (hk0.symm.trans hkey)
        exact ⟨hk0, hm0, hv0,
          Or.inr ⟨a.1, a.2, hbm, hchunk ▸ hc, rfl⟩⟩
    · rw [if_neg hin] at hq
      rcases PyDict.mem_set hq with hold | hnew
      · exact hb q hold
      · subst hnew
        exact ⟨rfl, hcm, Or.inl rfl, Or.inr ⟨a.1, a.2, hbm, hc, rfl⟩⟩

theorem get_foldl_addVector_skip :
    ∀ (l : List (Chunk × ℚ)) (m : List (String × Entry)) (c : Chunk),
      c.chunk_id ∉ l.map (fun p => p.1.chunk_id) →
      PyDict.get (l.foldl (fun m2 p => addVector m2 p.1 p.2) m) c.chunk_id =
        PyDict.get m c.chunk_id := by
  intro l
  induction l with
  | nil => intro m c _; rfl
  | cons p rest ih =>
    intro m c hnot
    simp only [List.map_cons, List.mem_cons] at hnot
    push_neg at hnot
    rw [List.foldl_cons, ih _ _ hnot.2]
    exact PyDict.get_set_ne _ _ _ _ (fun h => hnot.1 h.symm)

theorem get_vectorPhase {vr : List (Chunk × ℚ)} {c : Chunk} {v : ℚ}
    (hmem : (c, v) ∈ vr)
    (hnd : (vr.map (fun p => p.1.chunk_id)).Nodup) :
    PyDict.get (vectorPhase vr) c.chunk_id = some ⟨c, v, 0⟩ := by
  unfold vectorPhase
  suffices h : ∀ (l : List (Chunk × ℚ)) (m : List (String × Entry)),
      (c, v) ∈ l → (l.map (fun p => p.1.chunk_id)).Nodup →
      PyDict.get (l.foldl (fun m2 p => addVector m2 p.1 p.2) m) c.chunk_id =
        some ⟨c, v, 0⟩ from h vr [] hmem hnd
  intro l
  induction l with
  | nil => intro m h; cases h
  | cons p rest ih =>
    intro m hmem2 hnd2
    simp only [List.map_cons, List.nodup_cons] at hnd2
    rcases List.mem_cons.mp hmem2 with heq | hrest
    · have hc : p = (c, v) := heq.symm
      subst hc
      rw [List.foldl_cons, get_foldl_addVector_skip rest _ c hnd2.1]
      exact PyDict.get_set_self m c.chunk_id ⟨c, v, 0⟩
    · exact ih _ hrest hnd2.2

theorem get_bm_foldl_skip (bm : List ℚ) (chunks : List Chunk) (c : Chunk)
    (hnot : c.chunk_id ∉ (chunks.take bm.length).map Chunk.chunk_id) :
    ∀ (l : List (Nat × ℚ)) (m : List (String × Entry)),
      (∀ a ∈ l, a.1 < bm.length) →
      PyDict.get (l.foldl (bmStep chunks bm) m) c.chunk_id =
        PyDict.get m c.chunk_id := by
  intro l
  induction l with
  | nil => intro m _; rfl
  | cons a rest ih =>
    intro m hlt
    rw [List.foldl_cons,
      ih _ (fun a2 ha2 => hlt a2 (List.mem_cons_of_mem _ ha2))]
    unfold bmStep
    cases hc : chunks.get? a.1 with
    | none => rfl
    | some ch =>
      show PyDict.get
        (if (PyDict.get m ch.chunk_id).isSome = true then
          setBm m ch.chunk_id (normBm bm a.2)
        else PyDict.set m ch.chunk_id ⟨ch, 0, normBm bm a.2⟩)
        c.chunk_id = PyDict.get m c.chunk_id
      have hta : (chunks.take bm.length)[a.1]? = some ch := by
        rw [List.getElem?_take_of_lt (hlt a (List.mem_cons_self _ _)),
          ← List.get?_eq_getElem?]
        exact hc
      have hchm : ch ∈ chunks.take bm.length := List.getElem?_mem hta
      have hne : c.chunk_id ≠ ch.chunk_id := by
        intro h
        exact hnot (h ▸ List.mem_map_of_mem Chunk.chunk_id hchm)
      by_cases hin : (PyDict.get m ch.chunk_id).isSome
      · rw [if_pos hin]
        exact get_setBm_ne _ _ _ _ hne
      · rw [if_neg hin]
        exact PyDict.get_set_ne _ _ _ _ (fun h => hne h.symm)

end Hybrid

/-- C3: every fused output score is alpha times the candidate's vector score
plus (1 - alpha) times its max-normalized keyword score, with a missing
source contributing 0 (witnessed by the combined-dict entry the score was
computed from); given normalized inputs (vector scores in [0,1], nonnegative
BM25 scores, alpha in [0,1]) every output score lies in [0,1]; and a
candidate present only in the vector results is fused without error, its
entry carrying its vector score and keyword contribution 0. -/
theorem hybrid_fusion_spec (vr : List (Chunk × ℚ)) (bm : List ℚ)
    (chunks : List Chunk) (alpha : ℚ) (top_k : Nat)
    (hv : ∀ p ∈ vr, 0 ≤ p.2 ∧ p.2 ≤ 1)
    (hb : ∀ s ∈ bm, 0 ≤ s)
    (ha0 : 0 ≤ alpha) (ha1 : alpha ≤ 1)
    (hsub : ∀ p ∈ vr, p.1 ∈ chunks)
    (hndc : (chunks.map Chunk.chunk_id).Nodup)
    (hndv : (vr.map (fun p => p.1.chunk_id)).Nodup) :
    (∀ cs ∈ Hybrid.hybridFuse vr bm chunks alpha top_k,
      ∃ q ∈ Hybrid.combinedEntries vr bm chunks,
        cs.1 = q.2.chunk ∧
        cs.2 = alpha * q.2.vector_score + (1 - alpha) * q.2.bm25_score ∧
        (q.2.vector_score = 0 ∨ (q.2.chunk, q.2.vector_score) ∈ vr) ∧
        (q.2.bm25_score = 0 ∨ ∃ i s, bm.get? i = some s ∧
          chunks.get? i = some q.2.chunk ∧
          q.2.bm25_score = Hybrid.normBm bm s)) ∧
    (∀ cs ∈ Hybrid.hybridFuse vr bm chunks alpha top_k,
      0 ≤ cs.2 ∧ cs.2 ≤ 1) ∧
    (∀ c v, (c, v) ∈ vr →
      c.chunk_id ∉ (chunks.take bm.length).map Chunk.chunk_id →
      PyDict.get (Hybrid.combinedEntries vr bm chunks) c.chunk_id =
        some ⟨c, v, 0⟩) := by
  have hmem : ∀ cs ∈ Hybrid.hybridFuse vr bm chunks alpha top_k,
      ∃ q ∈ Hybrid.combinedEntries vr bm chunks,
        cs = (q.2.chunk, Hybrid.combinedScore alpha q.2) := by
    intro cs hcs
    unfold Hybrid.hybridFuse at hcs
    have h1 := List.mem_of_mem_take hcs
    have h2 := mem_sortByScoreDesc.mp h1
    obtain ⟨q, hq, heq⟩ := List.mem_map.mp h2
    exact ⟨q, hq, heq.symm⟩
  refine ⟨?_, ?_, ?_⟩
  · intro cs hcs
    obtain ⟨q, hq, heq⟩ := hmem cs hcs
    obtain ⟨_, _, hv2, hb2⟩ :=
      Hybrid.combined_inv vr bm chunks hsub hndc q hq
    subst heq
    exact ⟨q, hq, rfl, rfl, hv2, hb2⟩
  · intro cs hcs
    obtain ⟨q, hq, heq⟩ := hmem cs hcs
    obtain ⟨_, _, hv2, hb2⟩ :=
      Hybrid.combined_inv vr bm chunks hsub hndc q hq
    have hvb : 0 ≤ q.2.vector_score ∧ q.2.vector_score ≤ 1 := by
      rcases hv2 with h0 | hmemv
      · rw [h0]; norm_num
      · exact hv _ hmemv
    have hbb : 0 ≤ q.2.bm25_score ∧ q.2.bm25_score ≤ 1 := by
      rcases hb2 with h0 | ⟨i, s, hgi, _, hnb⟩
      · rw [h0]; norm_num
      · have hsmem : s ∈ bm := by
          rw [List.get?_eq_getElem?] at hgi
          exact List.getElem?_mem hgi
        rw [hnb]
        exact Hybrid.normBm_bounds hb hsmem
    have hgoal : 0 ≤ Hybrid.combinedScore alpha q.2 ∧
        Hybrid.combinedScore alpha q.2 ≤ 1 := by
      unfold Hybrid.combinedScore
      constructor
      · nlinarith [hvb.1, hvb.2, hbb.1, hbb.2]
      · nlinarith [hvb.1, hvb.2, hbb.1, hbb.2]
    rw [heq]
    exact hgoal
  · intro c v hmemv hnot
    unfold Hybrid.combinedEntries
    rw [Hybrid.get_bm_foldl_skip bm chunks c hnot bm.enum _
      (fun a ha => VectorStore.fst_lt_of_mem_enum ha)]
    exact Hybrid.get_vectorPhase hmemv hndv

/-- C3 witness: a two-chunk corpus with BM25 scores [2, 3], one vector hit on
the first chunk with score 1/2, and the default alpha = 7/10. -/
theorem hybrid_fusion_spec_witness :
    (∀ cs ∈ Hybrid.hybridFuse [(⟨"ta", "ca", "d"⟩, (1 / 2 : ℚ))] [2, 3]
        [⟨"ta", "ca", "d"⟩, ⟨"tb", "cb", "d"⟩] (7 / 10) 10,
      ∃ q ∈ Hybrid.combinedEntries [(⟨"ta", "ca", "d"⟩, (1 / 2 : ℚ))] [2, 3]
          [⟨"ta", "ca", "d"⟩, ⟨"tb", "cb", "d"⟩],
        cs.1 = q.2.chunk ∧
        cs.2 = (7 / 10) * q.2.vector_score +
          (1 - (7 / 10)) * q.2.bm25_score ∧
        (q.2.vector_score = 0 ∨
          (q.2.chunk, q.2.vector_score) ∈
            [(⟨"ta", "ca", "d"⟩, (1 / 2 : ℚ))]) ∧
        (q.2.bm25_score = 0 ∨ ∃ i s, [(2 : ℚ), 3].get? i = some s ∧
          [⟨"ta", "ca", "d"⟩, (⟨"tb", "cb", "d"⟩ : Chunk)].get? i =
            some q.2.chunk ∧
          q.2.bm25_score = Hybrid.normBm [2, 3] s)) ∧
    (∀ cs ∈ Hybrid.hybridFuse [(⟨"ta", "ca", "d"⟩, (1 / 2 : ℚ))] [2, 3]
        [⟨"ta", "ca", "d"⟩, ⟨"tb", "cb", "d"⟩] (7 / 10) 10,
      0 ≤ cs.2 ∧ cs.2 ≤ 1) ∧
    (∀ c v, (c, v) ∈ [(⟨"ta", "ca", "d"⟩, (1 / 2 : ℚ))] →
      c.chunk_id ∉
        ([⟨"ta", "ca", "d"⟩, (⟨"tb", "cb", "d"⟩ : Chunk)].take
          [(2 : ℚ), 3].length).map Chunk.chunk_id →
      PyDict.get (Hybrid.combinedEntries [(⟨"ta", "ca", "d"⟩, (1 / 2 : ℚ))]
          [2, 3] [⟨"ta", "ca", "d"⟩, ⟨"tb", "cb", "d"⟩]) c.chunk_id =
        some ⟨c, v, 0⟩) :=
  hybrid_fusion_spec [(⟨"ta", "ca", "d"⟩, (1 / 2 : ℚ))] [2, 3]
    [⟨"ta", "ca", "d"⟩, ⟨"tb", "cb", "d"⟩] (7 / 10) 10
    (by intro p hp; simp only [List.mem_singleton] at hp; subst hp; norm_num)
    (by intro s hs
        simp only [List.mem_cons, List.mem_singleton,
          List.not_mem_nil, or_false] at hs
        rcases hs with h | h <;> rw [h] <;> norm_num)
    (by norm_num) (by norm_num)
    (by intro p hp; simp only [List.mem_singleton] at hp; subst hp; simp)
    (by decide) (by decide)

namespace QueryExpansion

/-- Embeds QueryExpander._to_question (app/retrieval/query_expansion.py,
lines 25-35). -/
def toQuestion (query : String) : String :=
  if query.contains '?' then query
  else if ["what", "how", "why", "when", "where", "who"].any
      (fun w => query.toLower.startsWith w) then query ++ "?"
  else "What is " ++ query ++ "?"

/-- Embeds QueryExpander._add_context_words (lines 37-39). -/
def addContextWords (query : String) : String := "explain " ++ query

/-- Embeds QueryExpander.expand_query (lines 15-23): the original query
followed by two heuristic variations. -/
def expandQuery (query : String) : List String :=
  [query, toQuestion query, addContextWords query]

/-- Embeds re.sub of the pattern digits-dot-whitespace at the line start
(line 61): strip a leading numbering like "1. ". -/
def stripNumbering (line : String) : String :=
  let ds := line.takeWhile Char.isDigit
  if ds.length > 0 ∧ (line.drop ds.length).startsWith "." then
    (line.drop (ds.length + 1)).dropWhile Char.isWhitespace
  else line

/-- Embeds QueryExpander.expand_with_llm (lines 41-68). llmResp is none when
no client is configured; some (.error _) when the generation call raised
(fall back to the heuristic expansion); some (.ok r) on success, in which
case the non-blank response lines not starting with "Alternative" are
appended after the original query, capped at 4 variants. -/
def expandWithLLM (llmResp : Option (Except Unit String)) (query : String) :
    List String :=
  match llmResp with
  | none => expandQuery query
  | some (.error _) => expandQuery query
  | some (.ok response) =>
    let lines := response.trim.splitOn "\n"
    let variations := lines.foldl (fun acc line =>
      if line.trim ≠ "" ∧ ¬ line.startsWith "Alternative" then
        let variation := (stripNumbering line).trim
        if variation ≠ "" then acc ++ [variation] else acc
      else acc) [query]
    variations.take 4

theorem foldl_append_tail {α β : Type} (g : List α → β → List α) 
    (hg : ∀ acc x, ∃ t, g acc x = acc ++ t) :
    ∀ (l : List β) (init : List α), ∃ tail, l.foldl g init = init ++ tail := by
  intro l
  induction l with
  | nil => intro init; exact ⟨[], by simp⟩
  | cons x rest ih =>
    intro init
    obtain ⟨u, hu⟩ := hg init x
    obtain ⟨t, ht⟩ := ih (g init x)
    exact ⟨u ++ t, by rw [List.foldl_cons, ht, hu, List.append_assoc]⟩

/-- Every expansion mode emits the original query first. -/
theorem expandWithLLM_head (llmResp : Option (Except Unit String))
    (query : String) :
    ∃ rest, expandWithLLM llmResp query = query :: rest := by
  cases llmResp with
  | none => exact ⟨_, rfl⟩
  | some r =>
    cases r with
    | error e => exact ⟨_, rfl⟩
    | ok response =>
      show ∃ rest,
        ((response.trim.splitOn "\n").foldl (fun acc line =>
          if line.trim ≠ "" ∧ ¬ line.startsWith "Alternative" then
            if (stripNumbering line).trim ≠ "" then
              acc ++ [(stripNumbering line).trim] else acc
          else acc) [query]).take 4 = query :: rest
      obtain ⟨tail, htail⟩ := foldl_append_tail
        (fun acc line =>
          if line.trim ≠ "" ∧ ¬ line.startsWith "Alternative" then
            if (stripNumbering line).trim ≠ "" then
              acc ++ [(stripNumbering line).trim] else acc
          else acc)
        (by
          intro acc x
          by_cases h1 : x.trim ≠ "" ∧ ¬ x.startsWith "Alternative"
          · by_cases h2 : (stripNumbering x).trim ≠ ""
            · exact ⟨[(stripNumbering x).trim],
                by simp only [if_pos h1, if_pos h2]⟩
            · exact ⟨[], by simp only [if_pos h1, if_neg h2, List.append_nil]⟩
          · exact ⟨[], by simp only [if_neg h1, List.append_nil]⟩)
        (response.trim.splitOn "\n") [query]
      rw [htail]
      exact ⟨tail.take 3, rfl⟩

end QueryExpansion

namespace Pipeline

/-- The query-variant selection of RetrievalPipeline.retrieve
(app/retrieval/retrieval_pipeline.py, lines 47-51): with expansion requested
and an expander configured, the LLM-assisted expansion runs; otherwise the
original query alone. The expander parameter is none when no QueryExpander
is configured, otherwise it carries the state of the expander's LLM client
as in QueryExpansion.expandWithLLM. -/
def queriesOf (expander : Option (Option (Except Unit String)))
    (expand_query : Bool) (query : String) : List String :=
  match expand_query, expander with
  | true, some llmResp => QueryExpansion.expandWithLLM llmResp query
  | _, _ => [query]

/-- The deduplication loop of retrieve (lines 76-82): one pass with a seen
set, keeping the first occurrence of every chunk_id. -/
def dedupGo (seen : List String) : List (Chunk × ℚ) → List (Chunk × ℚ)
  | [] => []
  | p :: rest =>
    if p.1.chunk_id ∈ seen then dedupGo seen rest
    else p :: dedupGo (p.1.chunk_id :: seen) rest

/-- Deduplicate candidates by chunk_id, first occurrence wins. -/
def dedupById (l : List (Chunk × ℚ)) : List (Chunk × ℚ) := dedupGo [] l

/-- Embeds RetrievalPipeline.retrieve (lines 37-99). searchFn is the
per-variant candidate production (embed the variant, then vector or hybrid
search at the requested width); rr is none when no reranker is configured,
otherwise it carries the reranker's model state. Wall-clock latency is
dropped. -/
def retrieve (searchFn : String → Nat → List (Chunk × ℚ))
    (expander : Option (Option (Except Unit String)))
    (rr : Option (Option Reranker.Model))
    (query : String) (top_k : Nat) (rerank expand_query : Bool) :
    List (Chunk × ℚ) :=
  let queries := queriesOf expander expand_query query
  let all_candidates := (queries.map (fun q => searchFn q (top_k * 2))).flatten
  let unique_candidates := dedupById all_candidates
  match rerank, rr with
  | true, some model => Reranker.rerank model query unique_candidates top_k
  | _, _ => (sortByScoreDesc unique_candidates).take top_k

theorem dedupGo_not_seen :
    ∀ (l : List (Chunk × ℚ)) (seen : List String),
      ∀ p ∈ dedupGo seen l, p.1.chunk_id ∉ seen := by
  intro l
  induction l with
  | nil => intro seen p hp; cases hp
  | cons q rest ih =>
    intro seen p hp
    unfold dedupGo at hp
    by_cases hq : q.1.chunk_id ∈ seen
    · rw [if_pos hq] at hp
      exact ih seen p hp
    · rw [if_neg hq] at hp
      rcases List.mem_cons.mp hp with rfl | hp2
      · exact hq
      · have := ih _ p hp2
        intro hc
        exact this (List.mem_cons_of_mem _ hc)

theorem dedupGo_nodup :
    ∀ (l : List (Chunk × ℚ)) (seen : List String),
      ((dedupGo seen l).map (fun p => p.1.chunk_id)).Nodup := by
  intro l
  induction l with
  | nil => intro seen; exact List.nodup_nil
  | cons q rest ih =>
    intro seen
    unfold dedupGo
    by_cases hq : q.1.chunk_id ∈ seen
    · rw [if_pos hq]; exact ih seen
    · rw [if_neg hq]
      simp only [List.map_cons, List.nodup_cons]
      refine ⟨?_, ih _⟩
      intro hc
      obtain ⟨p, hp, hpe⟩ := List.mem_map.mp hc
      have := dedupGo_not_seen rest _ p hp
      exact this (hpe ▸ List.mem_cons_self _ _)

theorem dedupGo_find :
    ∀ (l : List (Chunk × ℚ)) (seen : List String),
      ∀ p ∈ dedupGo seen l,
        l.find? (fun q => q.1.chunk_id == p.1.chunk_id) = some p := by
  intro l
  induction l with
  | nil => intro seen p hp; cases hp
  | cons q rest ih =>
    intro seen p hp
    unfold dedupGo at hp
    by_cases hq : q.1.chunk_id ∈ seen
    · rw [if_pos hq] at hp
      have hpn := dedupGo_not_seen rest seen p hp
      have hne : (q.1.chunk_id == p.1.chunk_id) = false := by
        simp only [beq_eq_false_iff_ne, ne_eq]
        intro hc
        exact hpn (hc ▸ hq)
      rw [List.find?_cons_of_neg _ (by simp [hne]), ih seen p hp]
    · rw [if_neg hq] at hp
      rcases List.mem_cons.mp hp with rfl | hp2
      · rw [List.find?_cons_of_pos _ (by simp)]
      · have hpn := dedupGo_not_seen rest _ p hp2
        have hne : (q.1.chunk_id == p.1.chunk_id) = false := by
          simp only [beq_eq_false_iff_ne, ne_eq]
          intro hc
          exact hpn (hc ▸ List.mem_cons_self _ _)
        rw [List.find?_cons_of_neg _ (by simp [hne]), ih _ p hp2]

end Pipeline

namespace Pipeline

theorem takeSort_spec (l : List (Chunk × ℚ)) (k : Nat)
    (hnd : (l.map (fun p => p.1.chunk_id)).Nodup) :
    ((sortByScoreDesc l).take k).length ≤ k ∧
    (((sortByScoreDesc l).take k).map (fun p => p.1.chunk_id)).Nodup ∧
    ∀ p ∈ (sortByScoreDesc l).take k, p ∈ l := by
  refine ⟨List.length_take_le _ _, ?_, ?_⟩
  · have hsorted : ((sortByScoreDesc l).map
        (fun p => p.1.chunk_id)).Nodup :=
      (((sortByScoreDesc_perm l).map _).nodup_iff).mpr hnd
    exact List.Nodup.sublist
      (List.Sublist.map _ (List.take_sublist _ _)) hsorted
  · intro p hp
    exact mem_sortByScoreDesc.mp (List.mem_of_mem_take hp)

theorem rerank_branch_spec (m : Option Reranker.Model) (query : String)
    (k : Nat) (u ac : List (Chunk × ℚ))
    (hnu : (u.map (fun p => p.1.chunk_id)).Nodup)
    (hfind : ∀ p ∈ u,
      ac.find? (fun q => q.1.chunk_id == p.1.chunk_id) = some p) :
    (Reranker.rerank m query u k).length ≤ k ∧
    ((Reranker.rerank m query u k).map (fun p => p.1.chunk_id)).Nodup ∧
    ∀ p ∈ Reranker.rerank m query u k, ∃ s,
      ac.find? (fun q => q.1.chunk_id == p.1.chunk_id) = some (p.1, s) := by
  unfold Reranker.rerank
  by_cases hnil : u = []
  · rw [if_pos hnil]
    exact ⟨by simp, by simp, by simp⟩
  · rw [if_neg hnil]
    cases m with
    | none =>
      refine ⟨List.length_take_le _ _, ?_, ?_⟩
      · exact List.Nodup.sublist
          (List.Sublist.map _ (List.take_sublist _ _)) hnu
      · intro p hp
        exact ⟨p.2, hfind p (List.mem_of_mem_take hp)⟩
    | some f =>
      have hnd2 : ((u.map (fun p => (p.1, f query p.1.content))).map
          (fun p => p.1.chunk_id)).Nodup := by
        rw [List.map_map]
        exact hnu
      obtain ⟨h1, h2, h3⟩ := takeSort_spec
        (u.map (fun p => (p.1, f query p.1.content))) k hnd2
      refine ⟨h1, h2, ?_⟩
      intro p hp
      obtain ⟨q0, hq0, heq⟩ := List.mem_map.mp (h3 p hp)
      subst heq
      exact ⟨q0.2, hfind q0 hq0⟩

theorem retrieve_eq (searchFn : String → Nat → List (Chunk × ℚ))
    (expander : Option (Option (Except Unit String)))
    (rr : Option (Option Reranker.Model))
    (query : String) (top_k : Nat) (rerank expand_query : Bool) :
    retrieve searchFn expander rr query top_k rerank expand_query =
      match rerank, rr with
      | true, some model => Reranker.rerank model query
          (dedupById (((queriesOf expander expand_query query).map
            (fun q => searchFn q (top_k * 2))).flatten)) top_k
      | _, _ => (sortByScoreDesc
          (dedupById (((queriesOf expander expand_query query).map
            (fun q => searchFn q (top_k * 2))).flatten))).take top_k := rfl

end Pipeline

/-- C5: for every retrieve call — any query, any expansion and reranker
configuration, any top_k — the returned list has length at most top_k, no
two entries share a chunk_id, every returned chunk is the first occurrence
of its chunk_id in the concatenated per-variant candidate stream (whose
first block is the original query's candidates: the variant list always
starts with the original query). -/
theorem retrieve_dedup_spec (searchFn : String → Nat → List (Chunk × ℚ))
    (expander : Option (Option (Except Unit String)))
    (rr : Option (Option Reranker.Model))
    (query : String) (top_k : Nat) (rerank expand_query : Bool) :
    (Pipeline.retrieve searchFn expander rr query top_k rerank
      expand_query).length ≤ top_k ∧
    ((Pipeline.retrieve searchFn expander rr query top_k rerank
      expand_query).map (fun p => p.1.chunk_id)).Nodup ∧
    (∀ p ∈ Pipeline.retrieve searchFn expander rr query top_k rerank
        expand_query, ∃ s,
      (((Pipeline.queriesOf expander expand_query query).map
          (fun q => searchFn q (top_k * 2))).flatten).find?
        (fun q => q.1.chunk_id == p.1.chunk_id) = some (p.1, s)) ∧
    (∃ rest, Pipeline.queriesOf expander expand_query query =
      query :: rest) := by
  have hhead : ∃ rest, Pipeline.queriesOf expander expand_query query =
      query :: rest := by
    unfold Pipeline.queriesOf
    cases expand_query with
    | false => cases expander <;> exact ⟨[], rfl⟩
    | true =>
      cases expander with
      | none => exact ⟨[], rfl⟩
      | some llmResp => exact QueryExpansion.expandWithLLM_head llmResp query
  set ac := ((Pipeline.queriesOf expander expand_query query).map
    (fun q => searchFn q (top_k * 2))).flatten with hac
  have hnu : ((Pipeline.dedupById ac).map
      (fun p => p.1.chunk_id)).Nodup := Pipeline.dedupGo_nodup ac []
  have hfind : ∀ p ∈ Pipeline.dedupById ac,
      ac.find? (fun q => q.1.chunk_id == p.1.chunk_id) = some p :=
    Pipeline.dedupGo_find ac []
  have hdefault :
      ((sortByScoreDesc (Pipeline.dedupById ac)).take top_k).length ≤ top_k ∧
      (((sortByScoreDesc (Pipeline.dedupById ac)).take top_k).map
        (fun p => p.1.chunk_id)).Nodup ∧
      (∀ p ∈ (sortByScoreDesc (Pipeline.dedupById ac)).take top_k, ∃ s,
        ac.find? (fun q => q.1.chunk_id == p.1.chunk_id) = some (p.1, s)) := by
    obtain ⟨h1, h2, h3⟩ := Pipeline.takeSort_spec (Pipeline.dedupById ac)
      top_k hnu
    exact ⟨h1, h2, fun p hp => ⟨p.2, hfind p (h3 p hp)⟩⟩
  rw [Pipeline.retrieve_eq]
  cases rerank with
  | false =>
    exact ⟨hdefault.1, hdefault.2.1, hdefault.2.2, hhead⟩
  | true =>
    cases rr with
    | none => exact ⟨hdefault.1, hdefault.2.1, hdefault.2.2, hhead⟩
    | some model =>
      obtain ⟨h1, h2, h3⟩ := Pipeline.rerank_branch_spec model query top_k
        (Pipeline.dedupById ac) ac hnu hfind
      exact ⟨h1, h2, h3, hhead⟩

namespace Agent

/-- The normalized provider response of one agent iteration (spec §9): the
Anthropic stop_reason tool_use branch and the OpenAI tool_calls branch of
_agentic_execution both amount to a list of requested calls; the final
else-branch extracts an answer text. -/
inductive AgentResponse where
  | toolUse (calls : List (String × ToolRegistry.ToolDict))
  | finalAnswer (text : String)

/-- The outcome field of a tools_used record (rag_agent.py lines 228-244):
success with the result, or failure with str(e). -/
inductive ToolOutcome where
  | success (result : ToolRegistry.ToolDict)
  | failure (error : String)
deriving Repr, DecidableEq

/-- One element of the tools_used trail. -/
structure ToolRecord where
  name : String
  input : ToolRegistry.ToolDict
  outcome : ToolOutcome
deriving Repr, DecidableEq

/-- json.dumps of a tool result for the accumulated context. -/
def renderDict (d : ToolRegistry.ToolDict) : String :=
  "\x7b" ++ String.intercalate ", "
    (d.map (fun p => "\x22" ++ p.1 ++ "\x22: " ++ toString p.2)) ++ "\x7d"

/-- Embeds the per-call half of the loop body
(app/agents/rag_agent.py, lines 216-273, identical for both provider
formats): each requested call is executed through the ToolRegistry with no
budget check; a success is recorded and its rendering appended to the
context, an exception is caught and recorded as a failure. -/
def execCalls (reg : ToolRegistry.Registry) :
    List (String × ToolRegistry.ToolDict) → List ToolRecord → String →
    List ToolRecord × String
  | [], used, context => (used, context)
  | (n, inp) :: rest, used, context =>
    match ToolRegistry.executeTool reg n inp with
    | .ok r => execCalls reg rest (used ++ [⟨n, inp, .success r⟩])
        (context ++ "\n\nTool: " ++ n ++ "\nResult: " ++ renderDict r)
    | .error e => execCalls reg rest (used ++ [⟨n, inp, .failure e.message⟩])
        context

/-- The generation provider, normalized per iteration index. -/
abbrev Provider := Nat → AgentResponse

/-- Embeds the for-loop of RAGTutorAgent._agentic_execution (lines 197-286):
remaining counts the iterations range(max_iterations) still to run and i is
the current loop index. Returns the final answer (none when the budget ran
out without one), the tools_used trail, and the value of the Python loop
variable at exit (the break index, or max_iterations - 1 when exhausted). -/
def loopGo (reg : ToolRegistry.Registry) (provider : Provider)
    (maxIter : Nat) :
    Nat → Nat → String → List ToolRecord →
    Option String × List ToolRecord × Nat
  | 0, _, _, used => (none, used, maxIter - 1)
  | remaining + 1, i, context, used =>
    match provider i with
    | .toolUse calls =>
      let step := execCalls reg calls used context
      loopGo reg provider maxIter remaining (i + 1) step.2 step.1
    | .finalAnswer t => (some t, used, i)

/-- The dict returned by _agentic_execution (lines 291-296). -/
structure AgentResult where
  answer : String
  tools_used : List ToolRecord
  iterations : Nat
  chunks_used : Nat
deriving Repr, DecidableEq

/-- The fixed fallback of line 289. -/
def fallbackMessage : String :=
  "I couldn\x27t complete the task within the allowed iterations."

/-- Embeds RAGTutorAgent._agentic_execution (lines 182-296): the initial
context is the first three retrieved chunks joined by blank lines; the loop
runs up to maxIter iterations (self.max_iterations, default 5); a falsy
final answer (None or the empty string) is replaced by the fixed fallback
message. -/
def agenticExecution (reg : ToolRegistry.Registry) (provider : Provider)
    (maxIter : Nat) (chunks : List (Chunk × ℚ)) : AgentResult :=
  let context := String.intercalate "\n\n"
    ((chunks.take 3).map (fun p => p.1.content))
  let res := loopGo reg provider maxIter maxIter 0 context []
  let answer :=
    match res.1 with
    | some t => if t = "" then fallbackMessage else t
    | none => fallbackMessage
  ⟨answer, res.2.1, res.2.2 + 1, chunks.length⟩

/-- A provider that never produces a final answer drives the loop to
exhaustion: no answer, and the loop variable ends at maxIter - 1. -/
theorem loopGo_never_final (reg : ToolRegistry.Registry)
    (provider : Provider) (maxIter : Nat)
    (hp : ∀ i, ∃ calls, provider i = .toolUse calls) :
    ∀ (r i : Nat) (context : String) (used : List ToolRecord),
      (loopGo reg provider maxIter r i context used).1 = none ∧
      (loopGo reg provider maxIter r i context used).2.2 = maxIter - 1 := by
  intro r
  induction r with
  | zero => intro i context used; exact ⟨rfl, rfl⟩
  | succ r ih =>
    intro i context used
    obtain ⟨calls, hc⟩ := hp i
    simp only [loopGo, hc]
    exact ih (i + 1) _ _

end Agent

/-- C7: for every generation provider that never returns a FinalAnswer, the
agentic loop terminates after exactly max_iterations iterations (so at most
max_iterations, default 5) and returns the fixed fallback message. -/
theorem agent_loop_exhausts_iterations (reg : ToolRegistry.Registry)
    (provider : Agent.Provider) (maxIter : Nat) (chunks : List (Chunk × ℚ))
    (hp : ∀ i, ∃ calls, provider i = Agent.AgentResponse.toolUse calls)
    (hmi : 1 ≤ maxIter) :
    (Agent.agenticExecution reg provider maxIter chunks).answer =
      Agent.fallbackMessage ∧
    (Agent.agenticExecution reg provider maxIter chunks).iterations =
      maxIter := by
  obtain ⟨h1, h2⟩ := Agent.loopGo_never_final reg provider maxIter hp
    maxIter 0 (String.intercalate "\n\n"
      ((chunks.take 3).map (fun p => p.1.content))) []
  unfold Agent.agenticExecution
  constructor
  · simp only [h1]
  · simp only [h2]
    omega

/-- C7 witness: the empty registry and a provider that always requests an
empty batch of tool calls exhaust the default five iterations and yield the
fallback message. -/
theorem agent_loop_exhausts_iterations_witness :
    (Agent.agenticExecution ToolRegistry.Registry.empty
        (fun _ => Agent.AgentResponse.toolUse []) 5 []).answer =
      Agent.fallbackMessage ∧
    (Agent.agenticExecution ToolRegistry.Registry.empty
        (fun _ => Agent.AgentResponse.toolUse []) 5 []).iterations = 5 :=
  agent_loop_exhausts_iterations ToolRegistry.Registry.empty
    (fun _ => Agent.AgentResponse.toolUse []) 5 []
    (fun _ => ⟨[], rfl⟩) (by norm_num)

/-- C1 divergence evidence: the agent loop performs no budget check. For a
session whose ActionBudgetGuard lifetime budget is fully exhausted (10
increments against the default guard, so check_budget returns false), an
agentic execution whose provider requests the call t(x=1) in its first
iteration still invokes the handler through the ToolRegistry and appends a
SUCCESSFUL invocation to the tools_used trail — no budget-exceeded failure
is ever recorded, because _agentic_execution never consults the guard (the
guard is built in app/main.py but no agent code calls check_budget or
increment). -/
theorem agent_tool_call_ignores_exhausted_budget :
    (ActionBudget.checkBudget {} (ActionBudget.incrementN "sess" 0 10)
      "sess" 0).1 = false ∧
    (Agent.agenticExecution
        (ToolRegistry.register ToolRegistry.Registry.empty "t" "test tool"
          [] (.sync (fun input => .ok input)))
        (fun i => if i = 0 then .toolUse [("t", [("x", 1)])]
          else .finalAnswer "done")
        5 []).tools_used =
      [⟨"t", [("x", 1)], .success [("x", 1)]⟩] := by
  constructor
  · have h10 : (10 : Nat) = 9 + 1 := rfl
    rw [h10, ActionBudget.incrementN_succ_eq,
      ActionBudget.checkBudget_eval _ _ _ _ _ _ (by norm_num)]
    norm_num
  · rfl
